import Mathlib

/-!
Shallow embedding of the trident trigram index (camdencheek/trident).

Sources embedded here:
- src/src/lib.rs        : the Trigram type and its u32 (TrigramID) packing;
- src/src/build/mod.rs  : IndexBuilder (extract_trigrams, add_doc, build_unique_successors,
                          build_successors, build_unique_docs, build);
- src/src/index.rs      : Index (candidates, trigram_section), PostingSearcher (search),
                          DocIDMapper, IndexHeader, PostingHeader;
- src/src/build/serialize.rs : the U32 / U32Delta codecs.

Documents are byte strings, modelled as List Nat (each element a u8 value, so < 256
where that matters; bounds appear as explicit hypotheses).  Machine integers are
modelled as Nat: all arithmetic in the embedded paths stays within u32/u64 range,
and no wrapping subtraction or overflow occurs on the behaviours proved here.
Rust hash maps/sets only ever flow into order-insensitive results in the embedded
code (sets are deduplicated and then sorted before use), so they are modelled as
deduplicated lists.
-/

namespace Trident

/-- A Trigram is an ordered triple of bytes (src/src/lib.rs `Trigram([u8; 3])`). -/
abbrev Trigram := Nat × Nat × Nat

/-- The 24-bit integer form of a trigram: `(b0 << 16) + (b1 << 8) + b2`
(src/src/lib.rs `impl From<Trigram> for TrigramID`; shifts written as multiplications). -/
def trigramToId (t : Trigram) : Nat := t.1 * 65536 + t.2.1 * 256 + t.2.2

/-- All three components are byte values, as guaranteed by Rust's `u8` type. -/
def ByteTriple (t : Trigram) : Prop := t.1 < 256 ∧ t.2.1 < 256 ∧ t.2.2 < 256

instance : DecidablePred ByteTriple := fun t => by unfold ByteTriple; infer_instance

/-- `content.array_windows::<3>()` (src/src/build/mod.rs line 95): all overlapping
length-3 windows of the document, in order. -/
def trigramWindows : List Nat → List Trigram
  | a :: b :: c :: rest => (a, b, c) :: trigramWindows (b :: c :: rest)
  | _ => []

/-- The padded tail trigrams (src/src/build/mod.rs lines 79-93): for a document
matching `[.., y, z]` the buffer `[y, z, 0xFF, 0xFF]` yields windows
`(y,z,FF)` and `(z,FF,FF)`; for `[z]` the buffer `[z, 0xFF, 0xFF]` yields
`(z,FF,FF)`; the empty document yields nothing.  Note `(FF,FF,FF)` is never
produced. -/
def tailTrigrams (c : List Nat) : List Trigram :=
  match c.reverse with
  | z :: y :: _ => [(y, z, 255), (z, 255, 255)]
  | [z] => [(z, 255, 255)]
  | [] => []

/-- The successor stream (src/src/build/mod.rs line 96): the windows shifted by
three, then the padded tail trigrams. -/
def successorStream (c : List Nat) : List Trigram :=
  (trigramWindows c).drop 3 ++ tailTrigrams c

/-- The (trigram, successor) pairs inserted into the per-document map
(src/src/build/mod.rs line 98: `trigrams.zip(successors)`).  `zip` truncates at
the shorter stream, exactly as the Rust iterator `zip` does. -/
def extractPairs (c : List Nat) : List (Trigram × Trigram) :=
  (trigramWindows c).zip (successorStream c)

/-- The distinct successor set recorded under key `t` by `extract_trigrams`
(src/src/build/mod.rs lines 98-107); the FxHashSet is modelled as a
deduplicated list. -/
def extractSuccs (c : List Nat) (t : Trigram) : List Trigram :=
  (((extractPairs c).filter (fun p => p.1 == t)).map (fun p => p.2)).dedup

/-- The key set of `extract_trigrams` (src/src/build/mod.rs lines 98-113): every
trigram that received a pair, plus each padded tail trigram (inserted with an
empty successor set when not already a key). -/
def extractKeys (c : List Nat) : List Trigram :=
  ((extractPairs c).map (fun p => p.1) ++ tailTrigrams c).dedup

/-- `combined[t]` after adding every document through `add_doc`
(src/src/build/mod.rs lines 57-74): the `(doc_id, successor-set)` entries for
trigram `t`, appended in document order, with `doc_id` the position of the
document in the input list (the monotonic `doc_ids` allocator issues one id per
`add_doc` call). -/
def docsFor (docs : List (List Nat)) (t : Trigram) : List (Nat × List Trigram) :=
  ((docs.enum.filter (fun p => decide (t ∈ extractKeys p.2))).map
    (fun p => (p.1, extractSuccs p.2 t)))

/-- `build_unique_successors` (src/src/build/mod.rs lines 117-143): the distinct
successors across the posting, converted to their u32 forms and sorted. -/
def buildU (entries : List (Nat × List Trigram)) : List Nat :=
  List.insertionSort (· ≤ ·) (((entries.flatMap (fun p => p.2)).dedup).map trigramToId)

/-- `unique_successors.binary_search(&t).unwrap()` (src/src/build/mod.rs line
160): on the sorted, duplicate-free vector this is the index of `t`; modelled by
`findIdx` (the `unwrap` never fires in the builder because every searched value
is a member). -/
def localIdx (U : List Nat) (v : Nat) : Nat := U.findIdx (fun u => u == v)

/-- One document's matrix contribution (src/src/build/mod.rs lines 153-164): map
each successor in the document's set to `index-in-U + local_doc_id * |U|`, then
sort the freshly appended block. -/
def matrixBlock (U : List Nat) (i : Nat) (succs : List Trigram) : List Nat :=
  List.insertionSort (· ≤ ·) (succs.map (fun s => localIdx U (trigramToId s) + i * U.length))

/-- `build_successors` (src/src/build/mod.rs lines 146-173): the concatenation of
the per-document blocks in document order. -/
def buildMatrix (U : List Nat) (entries : List (Nat × List Trigram)) : List Nat :=
  (entries.enum.map (fun p => matrixBlock U p.1 p.2.2)).flatten

/-- `build_unique_docs` (src/src/build/mod.rs lines 175-189): the posting's
DocIDs in order. -/
def buildD (entries : List (Nat × List Trigram)) : List Nat :=
  entries.map (fun p => p.1)

/-- The three decoded sequences of one trigram posting (spec §3): what
`build_posting` encodes and what the reader's three `U32DeltaDecompressor`
streams decode back (the byte codec itself is embedded separately below). -/
structure TrigramPosting where
  uniqueSuccessors : List Nat
  matrix : List Nat
  docs : List Nat
deriving DecidableEq, Repr, Inhabited

/-- The posting built for trigram `t` (src/src/build/mod.rs `build_posting`). -/
def mkPosting (docs : List (List Nat)) (t : Trigram) : TrigramPosting :=
  { uniqueSuccessors := buildU (docsFor docs t)
    matrix := buildMatrix (buildU (docsFor docs t)) (docsFor docs t)
    docs := buildD (docsFor docs t) }

/-- The trigram directory: the keys of the `BTreeMap` `combined`, iterated in
ascending trigram order (src/src/build/mod.rs line 236).  Lexicographic order on
byte triples coincides with numeric order of their 24-bit forms (spec §3). -/
def allTrigrams (docs : List (List Nat)) : List Trigram :=
  List.insertionSort (fun s t => trigramToId s ≤ trigramToId t)
    ((docs.flatMap extractKeys).dedup)

/-- An opened index (src/src/index.rs `Index`): `num_docs` from the footer, and
the in-memory trigram directory with, for each trigram, the posting streams its
posting section decodes to. -/
structure Index where
  numDocs : Nat
  entries : List (Trigram × TrigramPosting)
deriving DecidableEq, Repr, Inhabited

/-- Building then reopening, at the level of decoded posting streams: one
directory entry per distinct trigram, in ascending order, each carrying the
posting `build_posting` wrote for it.  (`numDocs` is the document count the
spec requires the footer to carry; see the C4 analysis for the builder's
omission of this field.) -/
def buildIndex (docs : List (List Nat)) : Index :=
  { numDocs := docs.length
    entries := (allTrigrams docs).map (fun t => (t, mkPosting docs t)) }

/-- Itertools `dedup()` (src/src/index.rs line 221): collapse runs of
consecutive equal values. -/
def dedupConsec : List Nat → List Nat
  | [] => []
  | [a] => [a]
  | a :: b :: rest => if a = b then dedupConsec (b :: rest) else a :: dedupConsec (b :: rest)

/-- `DocIDMapper` (src/src/index.rs lines 385-420): for each required local doc
index, advance the `(local_doc_idx, doc_id)` enumeration until the local index
matches, emitting the corresponding doc id; when the enumeration runs out the
iterator ends. -/
def docIDMapper : List (Nat × Nat) → List Nat → List Nat
  | _, [] => []
  | pairs, l :: ls =>
    match pairs.dropWhile (fun p => p.1 != l) with
    | [] => []
    | (_, d) :: rest => d :: docIDMapper rest ls

/-- Plan B's single scan over the decoded unique successors (src/src/index.rs
lines 192-205), computing the half-open range `[start, end)` of local successor
indices whose value, shifted right, equals the target prefix. -/
def successorRange (succs : List Nat) (targetPrefix shift : Nat) : Nat × Nat :=
  succs.enum.foldl
    (fun se p =>
      if p.2 >>> shift < targetPrefix then (p.1 + 1, p.1 + 1)
      else if p.2 >>> shift = targetPrefix then (se.1, p.1 + 1)
      else se)
    (0, 0)

/-- `PostingSearcher::matrix` (src/src/index.rs lines 153-165): decode the
matrix stream and split each value into `(v / columns, v % columns)` where
`columns` is the unique-successor count. -/
def matrixPairs (p : TrigramPosting) : List (Nat × Nat) :=
  p.matrix.map (fun v => (v / p.uniqueSuccessors.length, v % p.uniqueSuccessors.length))

/-- `PostingSearcher::search` (src/src/index.rs lines 175-265): the three query
plans, switching on the remainder length (0, 1-2, ≥3). -/
def search (p : TrigramPosting) (remainder : List Nat) : List Nat :=
  if remainder.length = 0 then p.docs
  else if remainder.length ≤ 2 then
    let targetPrefix := remainder.foldl (fun acc b => acc * 256 + b) 0
    let shift := (3 - remainder.length) * 8
    let r := successorRange p.uniqueSuccessors targetPrefix shift
    if r.1 = r.2 then []
    else
      docIDMapper p.docs.enum
        (dedupConsec ((matrixPairs p).filterMap
          (fun q => if r.1 ≤ q.2 ∧ q.2 < r.2 then some q.1 else none)))
  else
    match remainder with
    | r0 :: r1 :: r2 :: _ =>
      match p.uniqueSuccessors.findIdx? (fun s => s == trigramToId (r0, r1, r2)) with
      | none => []
      | some tIdx =>
        docIDMapper p.docs.enum
          ((matrixPairs p).filterMap (fun q => if q.2 = tIdx then some q.1 else none))
    | _ => []

/-- `Index::candidates` (src/src/index.rs lines 88-116): queries shorter than
three bytes yield every DocID; otherwise binary-search the leading trigram in
the sorted directory (modelled by `find?`, which agrees with binary search on
the sorted duplicate-free directory) and run the posting search on the
remainder, or yield nothing when the trigram is absent. -/
def Index.candidates (idx : Index) (query : List Nat) : List Nat :=
  match query with
  | q0 :: q1 :: q2 :: rest =>
    match idx.entries.find? (fun e => e.1 == (q0, q1, q2)) with
    | none => []
    | some e => search e.2 rest
  | _ => List.range idx.numDocs

/-! ## The integer codecs (src/src/build/serialize.rs)

The `bitpacking` crate is an external collaborator; its 128-wide bit-packing is
modelled from the spec (§4.1): each of the 128 values of a full block is stored
in `num_bits` bits, the block bitstream is byte-aligned, and the sorted variant
stores deltas against the previous block's final value.  Functions defined by
repeated chunking carry an explicit fuel argument (initialised so that it can
never run out before the terminating case) to keep them structurally recursive
and hence evaluable by `decide`. -/

/-- `BitPacker4x::BLOCK_LEN`: 128 values per full block. -/
def BLOCK_LEN : Nat := 128

/-- Bit width of a value (`0` for `0`): the number of bits the `bitpacking`
crate needs to store it.  The fuel (first argument) only bounds recursion. -/
def natBitWidthAux : Nat → Nat → Nat
  | _, 0 => 0
  | 0, _ + 1 => 0
  | fuel + 1, n + 1 => natBitWidthAux fuel ((n + 1) / 2) + 1

/-- Bit width of `n`: `0` for `0`, otherwise `floor (log2 n) + 1`. -/
def natBitWidth (n : Nat) : Nat := natBitWidthAux n n

/-- `num_bits` / `num_bits_sorted` for a block: the width of the largest
(delta) value. -/
def numBitsOf (l : List Nat) : Nat := l.foldl (fun acc d => max acc (natBitWidth d)) 0

/-- Value of a bit sequence, least-significant bit first. -/
def bitsVal : List Bool → Nat
  | [] => 0
  | b :: rest => (if b then 1 else 0) + 2 * bitsVal rest

/-- Group a bitstream into bytes (LSB-first within each byte).  The final
catch-all arm is never reached on block payloads, whose bit count is a
multiple of 8. -/
def bitsToBytes : List Bool → List Nat
  | b0 :: b1 :: b2 :: b3 :: b4 :: b5 :: b6 :: b7 :: rest =>
      bitsVal [b0, b1, b2, b3, b4, b5, b6, b7] :: bitsToBytes rest
  | [] => []
  | bs => [bitsVal bs]

/-- Successive deltas of a non-decreasing sequence against a running last
value (`compress_sorted` framing; also the varint tail of the delta codec). -/
def deltaSeq (last : Nat) : List Nat → List Nat
  | [] => []
  | x :: xs => (x - last) :: deltaSeq x xs

/-- Modelled from the spec: `BitPacker4x::compress_sorted` — pack the block's
128 deltas at `nb` bits each into a byte-aligned bitstream. -/
def packSorted (last : Nat) (chunk : List Nat) (nb : Nat) : List Nat :=
  bitsToBytes ((deltaSeq last chunk).flatMap (fun d => (List.range nb).map d.testBit))

/-- Modelled from the spec: `BitPacker4x::compress` — pack the block's 128
values at `nb` bits each. -/
def packUnsorted (chunk : List Nat) (nb : Nat) : List Nat :=
  bitsToBytes (chunk.flatMap (fun v => (List.range nb).map v.testBit))

/-- Unsigned LEB128 (`write_varint`): 7 payload bits per byte, high bit set on
every byte but the last.  The fuel (first argument) only bounds recursion. -/
def varintBytesAux : Nat → Nat → List Nat
  | 0, n => [n]
  | fuel + 1, n => if n < 128 then [n] else (n % 128 + 128) :: varintBytesAux fuel (n / 128)

/-- Unsigned LEB128 encoding of `n`. -/
def varintBytes (n : Nat) : List Nat := varintBytesAux n n

/-- `U32DeltaCompressor::write_to` body (src/src/build/serialize.rs lines
44-63) after the sortedness assertion: full 128-value blocks prefixed by their
`num_bits` byte, then the leftover values as varint deltas.  The fuel (first
argument, initialised to the list length) cannot run out before the remainder
case because every step consumes 128 elements. -/
def deltaEncodeAux : Nat → Nat → List Nat → List Nat
  | 0, last, l => (deltaSeq last l).flatMap varintBytes
  | fuel + 1, last, l =>
    if l.length < BLOCK_LEN then (deltaSeq last l).flatMap varintBytes
    else
      (numBitsOf (deltaSeq last (l.take BLOCK_LEN))
          :: packSorted last (l.take BLOCK_LEN) (numBitsOf (deltaSeq last (l.take BLOCK_LEN))))
        ++ deltaEncodeAux fuel ((l.take BLOCK_LEN).getLastD 0) (l.drop BLOCK_LEN)

/-- The bytes `U32DeltaCompressor` writes for input `l` (threading `last = 0`
into the first block). -/
def deltaEncodeBytes (l : List Nat) : List Nat := deltaEncodeAux l.length 0 l

/-- Rust's `<[u32]>::is_sorted` (non-decreasing). -/
def isSortedLe : List Nat → Bool
  | [] => true
  | [_] => true
  | a :: b :: rest => decide (a ≤ b) && isSortedLe (b :: rest)

/-- `U32DeltaCompressor::write_to` (src/src/build/serialize.rs lines 40-65):
`assert!(self.0.is_sorted())` then the encoded bytes; `none` models the assert
panicking. -/
def U32DeltaCompressor.writeTo (l : List Nat) : Option (List Nat) :=
  if isSortedLe l then some (deltaEncodeBytes l) else none

/-- `U32Compressor::write_to` (src/src/build/serialize.rs lines 14-36): as the
delta variant but with absolute values and no assertion. -/
def U32Compressor.writeToAux : Nat → List Nat → List Nat
  | 0, l => l.flatMap varintBytes
  | fuel + 1, l =>
    if l.length < BLOCK_LEN then l.flatMap varintBytes
    else
      (numBitsOf (l.take BLOCK_LEN) :: packUnsorted (l.take BLOCK_LEN) (numBitsOf (l.take BLOCK_LEN)))
        ++ U32Compressor.writeToAux fuel (l.drop BLOCK_LEN)

/-- The bytes `U32Compressor` writes for input `l`. -/
def U32Compressor.writeTo (l : List Nat) : List Nat := U32Compressor.writeToAux l.length l

/-- Unsigned LEB128 decode of one value (`read_varint`): `none` models the
failed read on truncated input. -/
def varintDecode : List Nat → Option (Nat × List Nat)
  | [] => none
  | b :: rest =>
    if b < 128 then some (b, rest)
    else
      match varintDecode rest with
      | none => none
      | some (v, r) => some (b % 128 + v * 128, r)

/-- The delta decoder's varint tail (src/src/build/serialize.rs lines 177-185):
read `count` varint deltas, accumulating absolute values from `prev`. -/
def varintTailDeltas : List Nat → Nat → Nat → Option (List Nat)
  | _, 0, _ => some []
  | bytes, k + 1, prev =>
    match varintDecode bytes with
    | none => none
    | some (d, rest) =>
      match varintTailDeltas rest k (prev + d) with
      | none => none
      | some tl => some ((prev + d) :: tl)

/-- A byte stream as a bitstream, LSB-first within each byte. -/
def bytesToBits (bytes : List Nat) : List Bool :=
  bytes.flatMap (fun b => (List.range 8).map b.testBit)

/-- Running prefix sums from `prev` (the delta-prefix-sum bit unpacking). -/
def prefixSums (prev : Nat) : List Nat → List Nat
  | [] => []
  | d :: ds => (prev + d) :: prefixSums (prev + d) ds

/-- Modelled from the spec: `BitPacker4x::decompress_sorted` — unpack 128
deltas of `nb` bits each and recover absolute values from `prev`. -/
def unpackSorted (prev : Nat) (payload : List Nat) (nb : Nat) : List Nat :=
  prefixSums prev
    ((List.range BLOCK_LEN).map (fun i => bitsVal (((bytesToBits payload).drop (i * nb)).take nb)))

/-- `U32DeltaDecompressor` consuming `count` values
(src/src/build/serialize.rs lines 124-187).  `none` models a panic: a failed
`read_exact` or the decoder's `assert!(buf[0] < 32)` on the block's `num_bits`
byte.  While at least `BLOCK_LEN` values remain, a full block is decoded
(`num_bytes = num_bits * 128 / 8 = 16 * num_bits`); the final partial block is
read as varint deltas.  The fuel (first argument, initialised to `count`)
cannot run out while `count ≥ BLOCK_LEN` since each block consumes 128. -/
def U32DeltaDecompressor.decodeAux : Nat → List Nat → Nat → Nat → Option (List Nat)
  | 0, bytes, count, prev =>
    if count ≥ BLOCK_LEN then none
    else varintTailDeltas bytes count prev
  | fuel + 1, bytes, count, prev =>
    if count ≥ BLOCK_LEN then
      match bytes with
      | [] => none
      | nb :: rest =>
        if nb < 32 then
          if 16 * nb ≤ rest.length then
            match
              U32DeltaDecompressor.decodeAux fuel (rest.drop (16 * nb)) (count - BLOCK_LEN)
                ((unpackSorted prev (rest.take (16 * nb)) nb).getLastD prev)
            with
            | none => none
            | some tl => some (unpackSorted prev (rest.take (16 * nb)) nb ++ tl)
          else none
        else none
    else varintTailDeltas bytes count prev

/-- Decode `count` values of a `U32DeltaCompressor` stream (initial previous
value 0, matching the decoder's zero-initialised chunk buffer). -/
def U32DeltaDecompressor.decode (bytes : List Nat) (count : Nat) : Option (List Nat) :=
  U32DeltaDecompressor.decodeAux count bytes count 0

/-! ## On-disk layout written by `IndexBuilder::build` (src/src/build/mod.rs
lines 223-274) and read back by `Index::new` (src/src/index.rs lines 29-62). -/

/-- A little-endian u64 as its eight bytes (`write_u64::<LittleEndian>`). -/
def u64LE (n : Nat) : List Nat :=
  [n % 256, n / 256 % 256, n / 65536 % 256, n / 16777216 % 256,
   n / 4294967296 % 256, n / 1099511627776 % 256,
   n / 281474976710656 % 256, n / 72057594037927936 % 256]

/-- `Section` (src/src/ioutil.rs): an `(offset, len)` byte range. -/
structure Section where
  offset : Nat
  len : Nat
deriving DecidableEq, Repr

/-- `Section::write_to` (src/src/ioutil.rs lines 122-128): offset then len,
each as a little-endian u64 (16 bytes total). -/
def Section.writeTo (s : Section) : List Nat := u64LE s.offset ++ u64LE s.len

/-- `PostingHeader::SIZE_BYTES` (src/src/index.rs line 327): a 3-byte trigram
plus six u32 counts/sizes = 27 bytes. -/
def PostingHeader.SIZE_BYTES : Nat := 3 + 4 * 6

/-- `IndexHeader` as the reader parses it (src/src/index.rs lines 268-302):
`num_docs` then three sections. -/
structure IndexHeader where
  num_docs : Nat
  trigram_postings : Section
  unique_trigrams : Section
  trigram_posting_ends : Section
deriving DecidableEq, Repr

/-- `IndexHeader::SIZE_BYTES` (src/src/index.rs line 278): the 52 bytes the
reader seeks back from end-of-file. -/
def IndexHeader.SIZE_BYTES : Nat := 52

/-- Modelled from the spec: `TrigramPostingStats::total_bytes` (the
`build::stats` module is absent from src/; spec §4.4 serialises the posting as
header, then `U`, `S`, `D`): the posting's on-disk size in bytes. -/
def postingSize (docs : List (List Nat)) (t : Trigram) : Nat :=
  PostingHeader.SIZE_BYTES
    + (deltaEncodeBytes (mkPosting docs t).uniqueSuccessors).length
    + (deltaEncodeBytes (mkPosting docs t).matrix).length
    + (deltaEncodeBytes (mkPosting docs t).docs).length

/-- Running cumulative sums (`postings_len += posting_stats.total_bytes()`). -/
def cumSums (acc : Nat) : List Nat → List Nat
  | [] => []
  | x :: xs => (acc + x) :: cumSums (acc + x) xs

/-- `posting_ends` (src/src/build/mod.rs lines 233-241): each posting's
cumulative end offset within the postings region, in directory order. -/
def postingEnds (docs : List (List Nat)) : List Nat :=
  cumSums 0 ((allTrigrams docs).map (postingSize docs))

/-- The bytes of the posting-ends table (src/src/build/mod.rs line 251): one
little-endian u64 end offset per posting. -/
def endsTableBytes (docs : List (List Nat)) : List Nat :=
  (postingEnds docs).flatMap u64LE

/-- The trigram directory bytes (src/src/build/mod.rs line 246): three raw
bytes per posting. -/
def uniqueTrigramsBytes (docs : List (List Nat)) : List Nat :=
  (allTrigrams docs).flatMap (fun t => [t.1, t.2.1, t.2.2])

/-- The `IndexHeader` literal constructed at src/src/build/mod.rs lines
255-262.  It provides exactly three fields — the literal has no `num_docs`
field although `crate::index::IndexHeader` declares one — and its
`trigram_posting_ends.len` is the `offsets_len` counter, which the loop at
lines 249-253 advances by `+= 4` per posting even though `write_u64` emitted 8
bytes for each. -/
structure BuiltIndexHeader where
  trigram_postings : Section
  unique_trigrams : Section
  trigram_posting_ends : Section
deriving DecidableEq, Repr

/-- The footer field values the builder computes (src/src/build/mod.rs lines
244-262). -/
def buildHeader (docs : List (List Nat)) : BuiltIndexHeader :=
  { trigram_postings := ⟨0, (postingEnds docs).getLastD 0⟩
    unique_trigrams := ⟨(postingEnds docs).getLastD 0, (uniqueTrigramsBytes docs).length⟩
    trigram_posting_ends :=
      ⟨(postingEnds docs).getLastD 0 + (uniqueTrigramsBytes docs).length,
       4 * (allTrigrams docs).length⟩ }

/-- The footer bytes the builder's literal can provide: its three sections,
serialised with `Section::write_to` (48 bytes).  The reader instead seeks back
`IndexHeader::SIZE_BYTES = 52` bytes and parses `num_docs` first. -/
def buildHeaderBytes (docs : List (List Nat)) : List Nat :=
  ((buildHeader docs).trigram_postings).writeTo
    ++ ((buildHeader docs).unique_trigrams).writeTo
    ++ ((buildHeader docs).trigram_posting_ends).writeTo

/-! ## Helper lemmas -/

theorem enumFrom_fst_ge {α : Type _} :
    ∀ (n : Nat) (l : List α) (p : Nat × α), p ∈ List.enumFrom n l → n ≤ p.1 := by
  intro n l
  induction l generalizing n with
  | nil => intro p h; simp at h
  | cons a l ih =>
    intro p h
    rcases List.mem_cons.mp h with rfl | h2
    · exact Nat.le_refl _
    · exact Nat.le_of_succ_le (ih (n + 1) p h2)

theorem enumFrom_pairwise_fst_lt {α : Type _} :
    ∀ (n : Nat) (l : List α), (List.enumFrom n l).Pairwise (fun a b => a.1 < b.1) := by
  intro n l
  induction l generalizing n with
  | nil => exact List.Pairwise.nil
  | cons a l ih =>
    refine List.Pairwise.cons ?_ (ih (n + 1))
    intro p hp
    exact Nat.lt_of_lt_of_le (Nat.lt_succ_self n) (enumFrom_fst_ge (n + 1) l p hp)

theorem enumFrom_fst_lt_length {α : Type _} :
    ∀ (n : Nat) (l : List α) (p : Nat × α), p ∈ List.enumFrom n l → p.1 < n + l.length := by
  intro n l
  induction l generalizing n with
  | nil => intro p h; simp at h
  | cons a l ih =>
    intro p h
    rcases List.mem_cons.mp h with rfl | h2
    · simp
    · have h3 := ih (n + 1) p h2
      simp only [List.length_cons] at h3 ⊢
      omega

theorem enumFrom_snd_mem {α : Type _} :
    ∀ (n : Nat) (l : List α) (p : Nat × α), p ∈ List.enumFrom n l → p.2 ∈ l := by
  intro n l
  induction l generalizing n with
  | nil => intro p h; simp at h
  | cons a l ih =>
    intro p h
    rcases List.mem_cons.mp h with rfl | h2
    · exact List.mem_cons_self _ _
    · exact List.mem_cons_of_mem _ (ih (n + 1) p h2)

/-- Whatever local indices the mapper is asked for, its output is a sublist of
the doc-id components of its enumeration: each emitted doc id consumes a strict
prefix of the remaining enumeration. -/
theorem docIDMapper_sublist :
    ∀ (ls : List Nat) (pairs : List (Nat × Nat)),
      List.Sublist (docIDMapper pairs ls) (pairs.map Prod.snd) := by
  intro ls
  induction ls with
  | nil => intro pairs; simp [docIDMapper]
  | cons l ls ih =>
    intro pairs
    cases h : pairs.dropWhile (fun p => p.1 != l) with
    | nil => simp [docIDMapper, h]
    | cons hd rest =>
      obtain ⟨a, d⟩ := hd
      have hsub : List.Sublist ((a, d) :: rest) pairs := h ▸ List.dropWhile_sublist _
      have h2 : List.Sublist (d :: rest.map Prod.snd) (pairs.map Prod.snd) := by
        simpa using hsub.map Prod.snd
      simp only [docIDMapper, h]
      exact (List.Sublist.cons₂ d (ih rest)).trans h2

theorem docsFor_fst_pairwise (docs : List (List Nat)) (t : Trigram) :
    ((docsFor docs t).map Prod.fst).Pairwise (· < ·) := by
  unfold docsFor
  rw [List.map_map]
  have h2 : ((docs.enum.filter (fun p => decide (t ∈ extractKeys p.2)))).Pairwise
      (fun a b => a.1 < b.1) :=
    List.Pairwise.sublist (List.filter_sublist _) (enumFrom_pairwise_fst_lt 0 docs)
  exact List.pairwise_map.mpr h2

/-- DocIDs within one posting are strictly increasing: `add_doc` appends each
document's entry under a freshly allocated, strictly larger DocID. -/
theorem buildD_pairwise_lt (docs : List (List Nat)) (t : Trigram) :
    (buildD (docsFor docs t)).Pairwise (· < ·) :=
  docsFor_fst_pairwise docs t

theorem buildD_nodup (docs : List (List Nat)) (t : Trigram) :
    (buildD (docsFor docs t)).Nodup :=
  (buildD_pairwise_lt docs t).imp (fun h => Nat.ne_of_lt h)

theorem mapper_nodup (P : TrigramPosting) (hD : P.docs.Nodup) (ldis : List Nat) :
    (docIDMapper P.docs.enum ldis).Nodup := by
  have h := docIDMapper_sublist ldis P.docs.enum
  rw [show P.docs.enum.map Prod.snd = P.docs from List.enumFrom_map_snd 0 P.docs] at h
  exact List.Nodup.sublist h hD

/-- Every plan of `PostingSearcher::search` yields duplicate-free DocIDs as
soon as the posting's decoded doc list is duplicate-free. -/
theorem search_nodup (P : TrigramPosting) (hD : P.docs.Nodup) (rem : List Nat) :
    (search P rem).Nodup := by
  unfold search
  dsimp only
  split
  · exact hD
  · split
    · split
      · exact List.nodup_nil
      · exact mapper_nodup P hD _
    · split
      · split
        · exact List.nodup_nil
        · exact mapper_nodup P hD _
      · exact List.nodup_nil

theorem mem_entries_posting {docs : List (List Nat)} {e : Trigram × TrigramPosting}
    (h : e ∈ (buildIndex docs).entries) : e.2 = mkPosting docs e.1 := by
  simp only [buildIndex, List.mem_map] at h
  obtain ⟨t, _, rfl⟩ := h
  rfl

/-- Plan C ignores every remainder byte beyond the third. -/
theorem search_take_three (P : TrigramPosting) (r0 r1 r2 r3 : Nat) (rs : List Nat) :
    search P (r0 :: r1 :: r2 :: r3 :: rs) = search P [r0, r1, r2] := by
  unfold search
  rw [if_neg (by simp : ¬((r0 :: r1 :: r2 :: r3 :: rs) : List Nat).length = 0),
      if_neg (by simp only [List.length_cons]; omega :
        ¬((r0 :: r1 :: r2 :: r3 :: rs) : List Nat).length ≤ 2),
      if_neg (by simp : ¬(([r0, r1, r2] : List Nat)).length = 0),
      if_neg (by simp only [List.length_cons, List.length_nil]; omega :
        ¬(([r0, r1, r2] : List Nat)).length ≤ 2)]

theorem candidates_short (idx : Index) (Q : List Nat) (h : Q.length < 3) :
    idx.candidates Q = List.range idx.numDocs :=
  match Q, h with
  | [], _ => rfl
  | [_], _ => rfl
  | [_, _], _ => rfl
  | _ :: _ :: _ :: _, h => by simp only [List.length_cons] at h; omega

theorem candidates_missing (idx : Index) (q0 q1 q2 : Nat) (rest : List Nat)
    (h : ((q0, q1, q2) : Trigram) ∉ idx.entries.map Prod.fst) :
    idx.candidates (q0 :: q1 :: q2 :: rest) = [] := by
  have hf : idx.entries.find? (fun e => e.1 == (q0, q1, q2)) = none := by
    rw [List.find?_eq_none]
    intro e he hbeq
    exact h (List.mem_map.mpr ⟨e, he, (by simpa using hbeq)⟩)
  unfold Index.candidates
  simp only [hf]

theorem mem_buildU {E : List (Nat × List Trigram)} {p : Nat × List Trigram} {s : Trigram}
    (hp : p ∈ E) (hs : s ∈ p.2) : trigramToId s ∈ buildU E := by
  unfold buildU
  rw [List.mem_insertionSort]
  exact List.mem_map_of_mem _ (List.mem_dedup.mpr (List.mem_flatMap.mpr ⟨p, hp, hs⟩))

theorem localIdx_lt {U : List Nat} {v : Nat} (h : v ∈ U) : localIdx U v < U.length :=
  List.findIdx_lt_length_of_exists ⟨v, h, by simp⟩

theorem get_localIdx {U : List Nat} {v : Nat} (h : v ∈ U) :
    U.get ⟨localIdx U v, localIdx_lt h⟩ = v := by
  have h2 := @List.findIdx_getElem _ (fun u => u == v) U (localIdx_lt h)
  simpa using h2

theorem localIdx_inj {U : List Nat} {v w : Nat} (hv : v ∈ U) (hw : w ∈ U)
    (h : localIdx U v = localIdx U w) : v = w := by
  rw [← get_localIdx hv, ← get_localIdx hw]
  exact congrArg U.get (Fin.ext h)

theorem mem_trigramWindows_comp :
    ∀ (c : List Nat) (t : Trigram), t ∈ trigramWindows c →
      t.1 ∈ c ∧ t.2.1 ∈ c ∧ t.2.2 ∈ c
  | a :: b :: d :: rest, t, h => by
    rcases List.mem_cons.mp h with rfl | h2
    · refine ⟨List.mem_cons_self _ _, ?_, ?_⟩
      · exact List.mem_cons_of_mem _ (List.mem_cons_self _ _)
      · exact List.mem_cons_of_mem _ (List.mem_cons_of_mem _ (List.mem_cons_self _ _))
    · have h3 := mem_trigramWindows_comp (b :: d :: rest) t h2
      exact ⟨List.mem_cons_of_mem _ h3.1, List.mem_cons_of_mem _ h3.2.1,
        List.mem_cons_of_mem _ h3.2.2⟩
  | [], t, h => by simp [trigramWindows] at h
  | [_], t, h => by simp [trigramWindows] at h
  | [_, _], t, h => by simp [trigramWindows] at h

theorem mem_tailTrigrams_bytes {c : List Nat} {t : Trigram} (hb : ∀ b ∈ c, b < 256)
    (h : t ∈ tailTrigrams c) : ByteTriple t := by
  unfold tailTrigrams at h
  rcases hr : c.reverse with _ | ⟨z, _ | ⟨y, rest⟩⟩ <;> rw [hr] at h
  · simp at h
  · have hz : z ∈ c := List.mem_reverse.mp (hr ▸ List.mem_cons_self _ _)
    rcases List.mem_cons.mp h with rfl | h2
    · exact ⟨hb _ hz, by simp [ByteTriple], by simp [ByteTriple]⟩
    · simp at h2
  · have hz : z ∈ c := List.mem_reverse.mp (hr ▸ List.mem_cons_self _ _)
    have hy : y ∈ c := List.mem_reverse.mp
      (hr ▸ List.mem_cons_of_mem _ (List.mem_cons_self _ _))
    rcases List.mem_cons.mp h with rfl | h2
    · exact ⟨hb _ hy, hb _ hz, by norm_num⟩
    · rcases List.mem_cons.mp h2 with rfl | h3
      · exact ⟨hb _ hz, by norm_num, by norm_num⟩
      · simp at h3

theorem byteTriple_of_mem_succStream {c : List Nat} {t : Trigram}
    (hb : ∀ b ∈ c, b < 256) (h : t ∈ successorStream c) : ByteTriple t := by
  unfold successorStream at h
  rcases List.mem_append.mp h with h2 | h2
  · have h3 := mem_trigramWindows_comp c t (List.mem_of_mem_drop h2)
    exact ⟨hb _ h3.1, hb _ h3.2.1, hb _ h3.2.2⟩
  · exact mem_tailTrigrams_bytes hb h2

theorem byteTriple_of_mem_extractSuccs {c : List Nat} {t s : Trigram}
    (hb : ∀ b ∈ c, b < 256) (h : s ∈ extractSuccs c t) : ByteTriple s := by
  unfold extractSuccs at h
  rw [List.mem_dedup] at h
  obtain ⟨p, hp, rfl⟩ := List.mem_map.mp h
  obtain ⟨p1, p2⟩ := p
  have hzip := List.of_mem_zip (List.mem_filter.mp hp).1
  exact byteTriple_of_mem_succStream hb hzip.2

theorem extractSuccs_nodup (c : List Nat) (t : Trigram) : (extractSuccs c t).Nodup :=
  List.nodup_dedup _

theorem mem_docsFor {docs : List (List Nat)} {t : Trigram} {p : Nat × List Trigram}
    (hp : p ∈ docsFor docs t) : ∃ c ∈ docs, p.2 = extractSuccs c t := by
  unfold docsFor at hp
  obtain ⟨q, hq, rfl⟩ := List.mem_map.mp hp
  exact ⟨q.2, enumFrom_snd_mem 0 docs q (List.mem_filter.mp hq).1, rfl⟩

/-- The u32 packing is injective on byte triples (spec §3: a bijection with the
24-bit integers). -/
theorem trigramToId_inj {s t : Trigram} (hs : ByteTriple s) (ht : ByteTriple t)
    (h : trigramToId s = trigramToId t) : s = t := by
  obtain ⟨a, b, c⟩ := s
  obtain ⟨d, e, f⟩ := t
  obtain ⟨h1, h2, h3⟩ := hs
  obtain ⟨h4, h5, h6⟩ := ht
  unfold trigramToId at h
  simp only at h h1 h2 h3 h4 h5 h6
  have : a = d ∧ b = e ∧ c = f := by omega
  simp_all

theorem docsFor_succs_bytes {docs : List (List Nat)} {t : Trigram}
    (hb : ∀ d ∈ docs, ∀ b ∈ d, b < 256) {p : Nat × List Trigram} (hp : p ∈ docsFor docs t)
    {s : Trigram} (hs : s ∈ p.2) : ByteTriple s := by
  obtain ⟨c, hc, heq⟩ := mem_docsFor hp
  exact byteTriple_of_mem_extractSuccs (hb c hc) (heq ▸ hs)

theorem buildU_sorted (E : List (Nat × List Trigram)) :
    (buildU E).Pairwise (· ≤ ·) :=
  List.sorted_insertionSort _ _

theorem buildU_nodup {docs : List (List Nat)} {t : Trigram}
    (hb : ∀ d ∈ docs, ∀ b ∈ d, b < 256) : (buildU (docsFor docs t)).Nodup := by
  unfold buildU
  rw [(List.perm_insertionSort _ _).nodup_iff]
  apply List.Nodup.map_on ?_ (List.nodup_dedup _)
  intro x hx y hy hxy
  rw [List.mem_dedup, List.mem_flatMap] at hx hy
  obtain ⟨p, hp, hxp⟩ := hx
  obtain ⟨q, hq, hyq⟩ := hy
  exact trigramToId_inj (docsFor_succs_bytes hb hp hxp) (docsFor_succs_bytes hb hq hyq) hxy

theorem matrixBlock_mem {U : List Nat} {i : Nat} {ss : List Trigram} {v : Nat}
    (h : v ∈ matrixBlock U i ss) :
    ∃ s ∈ ss, v = localIdx U (trigramToId s) + i * U.length := by
  unfold matrixBlock at h
  rw [List.mem_insertionSort] at h
  obtain ⟨s, hs, rfl⟩ := List.mem_map.mp h
  exact ⟨s, hs, rfl⟩

theorem matrixBlock_le_bounds {U : List Nat} {i : Nat} {ss : List Trigram} {v : Nat}
    (h : v ∈ matrixBlock U i ss) :
    i * U.length ≤ v ∧ v ≤ (i + 1) * U.length := by
  obtain ⟨s, _, rfl⟩ := matrixBlock_mem h
  have h2 := @List.findIdx_le_length _ (fun u => u == trigramToId s) U
  unfold localIdx
  rw [Nat.succ_mul]
  omega

theorem matrixBlock_lt_bounds {U : List Nat} {i : Nat} {ss : List Trigram} {v : Nat}
    (hmem : ∀ s ∈ ss, trigramToId s ∈ U) (h : v ∈ matrixBlock U i ss) :
    i * U.length ≤ v ∧ v < (i + 1) * U.length ∧
      v / U.length = i ∧ v % U.length < U.length := by
  obtain ⟨s, hs, rfl⟩ := matrixBlock_mem h
  have h2 := localIdx_lt (hmem s hs)
  have hL : 0 < U.length := Nat.lt_of_le_of_lt (Nat.zero_le _) h2
  refine ⟨Nat.le_add_left _ _, ?_, ?_, ?_⟩
  · rw [Nat.succ_mul]; omega
  · rw [Nat.add_mul_div_right _ _ hL, Nat.div_eq_of_lt h2, Nat.zero_add]
  · rw [Nat.add_mul_mod_self_right, Nat.mod_eq_of_lt h2]; exact h2

theorem matrixBlock_sorted (U : List Nat) (i : Nat) (ss : List Trigram) :
    (matrixBlock U i ss).Pairwise (· ≤ ·) :=
  List.sorted_insertionSort _ _

theorem matrixBlock_pairwise_lt {U : List Nat} {i : Nat} {ss : List Trigram}
    (hmem : ∀ s ∈ ss, trigramToId s ∈ U) (hbytes : ∀ s ∈ ss, ByteTriple s)
    (hnodup : ss.Nodup) : (matrixBlock U i ss).Pairwise (· < ·) := by
  have hsorted := matrixBlock_sorted U i ss
  have hnd : (matrixBlock U i ss).Nodup := by
    unfold matrixBlock
    rw [(List.perm_insertionSort _ _).nodup_iff]
    apply List.Nodup.map_on ?_ hnodup
    intro x hx y hy hxy
    have hloc : localIdx U (trigramToId x) = localIdx U (trigramToId y) := by omega
    exact trigramToId_inj (hbytes x hx) (hbytes y hy)
      (localIdx_inj (hmem x hx) (hmem y hy) hloc)
  exact List.Sorted.lt_of_le hsorted hnd

theorem buildMatrix_mem {U : List Nat} {E : List (Nat × List Trigram)} {v : Nat}
    (h : v ∈ buildMatrix U E) :
    ∃ p ∈ E.enum, v ∈ matrixBlock U p.1 p.2.2 := by
  unfold buildMatrix at h
  rw [List.mem_flatten] at h
  obtain ⟨l, hl, hv⟩ := h
  obtain ⟨p, hp, rfl⟩ := List.mem_map.mp hl
  exact ⟨p, hp, hv⟩

/-- The matrix sequence is non-decreasing for any entry list: blocks are sorted
and the i-th block lives below (i+1)·|U|. -/
theorem buildMatrix_pairwise_le (U : List Nat) (E : List (Nat × List Trigram)) :
    (buildMatrix U E).Pairwise (· ≤ ·) := by
  unfold buildMatrix
  rw [List.pairwise_flatten]
  constructor
  · intro l hl
    obtain ⟨p, _, rfl⟩ := List.mem_map.mp hl
    exact matrixBlock_sorted U p.1 p.2.2
  · rw [List.pairwise_map]
    apply (enumFrom_pairwise_fst_lt 0 E).imp
    intro a b hab x hx y hy
    have hx2 := (matrixBlock_le_bounds hx).2
    have hy2 := (matrixBlock_le_bounds hy).1
    have hmid : (a.1 + 1) * U.length ≤ b.1 * U.length :=
      Nat.mul_le_mul_right _ (Nat.succ_le_of_lt hab)
    omega

/-- For a posting the builder produced from byte documents, the matrix is
strictly increasing: contributions of distinct documents occupy disjoint
ranges, and within one document distinct successors map to distinct indices. -/
theorem buildMatrix_pairwise_lt {docs : List (List Nat)} {t : Trigram}
    (hb : ∀ d ∈ docs, ∀ b ∈ d, b < 256) :
    (buildMatrix (buildU (docsFor docs t)) (docsFor docs t)).Pairwise (· < ·) := by
  unfold buildMatrix
  rw [List.pairwise_flatten]
  constructor
  · intro l hl
    obtain ⟨p, hp, rfl⟩ := List.mem_map.mp hl
    have hpE := enumFrom_snd_mem 0 _ p hp
    refine matrixBlock_pairwise_lt ?_ ?_ ?_
    · intro s hs; exact mem_buildU hpE hs
    · intro s hs; exact docsFor_succs_bytes hb hpE hs
    · obtain ⟨c, _, heq⟩ := mem_docsFor hpE
      rw [heq]; exact extractSuccs_nodup c t
  · rw [List.pairwise_map]
    have henr := List.Pairwise.and_mem.mp (enumFrom_pairwise_fst_lt 0 (docsFor docs t))
    apply henr.imp
    intro a b hab x hx y hy
    obtain ⟨ha, _, hlt⟩ := hab
    have haE := enumFrom_snd_mem 0 _ a ha
    have hx2 := (matrixBlock_lt_bounds (fun s hs => mem_buildU haE hs) hx).2.1
    have hy2 := (matrixBlock_le_bounds hy).1
    have hmid : (a.1 + 1) * (buildU (docsFor docs t)).length
        ≤ b.1 * (buildU (docsFor docs t)).length :=
      Nat.mul_le_mul_right _ (Nat.succ_le_of_lt hlt)
    omega

theorem buildMatrix_div_mod {docs : List (List Nat)} {t : Trigram} {v : Nat}
    (h : v ∈ buildMatrix (buildU (docsFor docs t)) (docsFor docs t)) :
    v / (buildU (docsFor docs t)).length < (docsFor docs t).length ∧
      v % (buildU (docsFor docs t)).length < (buildU (docsFor docs t)).length := by
  obtain ⟨p, hp, hv⟩ := buildMatrix_mem h
  have hpE := enumFrom_snd_mem 0 _ p hp
  have hb2 := matrixBlock_lt_bounds (fun s hs => mem_buildU hpE hs) hv
  have hi := enumFrom_fst_lt_length 0 _ p hp
  constructor
  · rw [hb2.2.2.1]; simpa using hi
  · exact hb2.2.2.2

theorem isSortedLe_of_pairwise : ∀ {l : List Nat}, l.Pairwise (· ≤ ·) → isSortedLe l = true
  | [], _ => rfl
  | [_], _ => rfl
  | a :: b :: rest, h => by
    have h1 := List.pairwise_cons.mp h
    have hab : a ≤ b := h1.1 b (List.mem_cons_self _ _)
    have ht := isSortedLe_of_pairwise h1.2
    simp [isSortedLe, hab, ht]

theorem writeTo_isSome_of_pairwise {l : List Nat} (h : l.Pairwise (· ≤ ·)) :
    (U32DeltaCompressor.writeTo l).isSome = true := by
  unfold U32DeltaCompressor.writeTo
  rw [if_pos (by rw [isSortedLe_of_pairwise h])]
  rfl

theorem length_flatMap_u64LE (l : List Nat) : (l.flatMap u64LE).length = 8 * l.length := by
  induction l with
  | nil => rfl
  | cons x xs ih =>
    simp only [List.flatMap_cons, List.length_append, ih, u64LE, List.length_cons,
      List.length_nil]
    omega

theorem length_flatMap_triple (l : List Trigram) :
    (l.flatMap (fun t => [t.1, t.2.1, t.2.2])).length = 3 * l.length := by
  induction l with
  | nil => rfl
  | cons x xs ih =>
    simp only [List.flatMap_cons, List.length_append, ih, List.length_cons, List.length_nil]
    omega

theorem cumSums_length (l : List Nat) : ∀ acc, (cumSums acc l).length = l.length := by
  induction l with
  | nil => intro acc; rfl
  | cons x xs ih => intro acc; simp [cumSums, ih]

/-! ## Claim theorems -/

set_option maxRecDepth 10000

/-- A 128-value non-decreasing sequence whose single full block contains a
delta of `2^32 - 1`, forcing `num_bits = 32`. -/
def c2Input : List Nat := List.replicate 127 0 ++ [4294967295]

/-- C1 (failing input): the document `"abcde"` contains the substring
`"cde"` (bytes 99,100,101, of length 3), yet after building and reopening,
`candidates` on that query yields the empty sequence — DocID 0 is missing.
The zip at src/src/build/mod.rs line 98 truncates at the successor stream,
which is one element short, so the document's final trigram `"cde"` never
becomes a key of the extraction and is absent from the trigram directory. -/
theorem candidates_misses_final_trigram :
    Index.candidates (buildIndex [[97, 98, 99, 100, 101]]) [99, 100, 101] = [] ∧
      0 ∉ Index.candidates (buildIndex [[97, 98, 99, 100, 101]]) [99, 100, 101] := by
  decide

/-- C2 (failing input): the sorted-delta codec does not round-trip `c2Input`.
The compressor legitimately emits `num_bits = 32` for the block (its largest
delta is `2^32 - 1`), but `U32DeltaDecompressor::populate_next_chunk` asserts
`buf[0] < 32` (src/src/build/serialize.rs line 164) and panics (modelled as
`none`) instead of decoding the block, contradicting the codec's own
round-trip property test. -/
theorem delta_codec_num_bits_32_panics :
    (U32DeltaCompressor.writeTo c2Input).isSome = true ∧
      (U32DeltaCompressor.writeTo c2Input).bind
        (fun bs => U32DeltaDecompressor.decode bs c2Input.length) = none := by
  decide

/-- C3 (failing input): for the two-byte document `[97, 98]` the extractor's
keys are exactly the two padded trigrams `(97,98,255)` and `(98,255,255)`;
the sentinel `(255,255,255)` the claim requires for every document with
`n ≥ 1` is never produced (the padding buffer at src/src/build/mod.rs lines
79-93 holds only four bytes, yielding two windows instead of three). -/
theorem extract_no_ff_sentinel :
    extractKeys [97, 98] = [(97, 98, 255), (98, 255, 255)] ∧
      ((255, 255, 255) : Trigram) ∉ extractKeys [97, 98] := by
  decide

/-- C4 (failing input): building the single document `"abc"`, the footer the
builder's `IndexHeader` literal can provide is its three sections — 48 bytes —
while the reader seeks back `IndexHeader::SIZE_BYTES = 52` bytes and parses a
`num_docs` field first; the literal at src/src/build/mod.rs lines 255-262 has
no `num_docs` field at all, so the built footer cannot carry the document
count the reopened reader's `num_docs` is supposed to equal. -/
theorem builder_footer_lacks_num_docs :
    (buildHeaderBytes [[97, 98, 99]]).length = 48 ∧
      IndexHeader.SIZE_BYTES = 52 ∧
      (buildHeaderBytes [[97, 98, 99]]).length ≠ IndexHeader.SIZE_BYTES := by
  decide

/-- C5 (counterexample): building the single document `"abc"` produces N = 3
postings, and the footer's `trigram_posting_ends.len` is 12 = 4·N, not 8·N:
the loop at src/src/build/mod.rs lines 249-253 writes an 8-byte u64 per
posting but advances `offsets_len` by 4. -/
theorem posting_ends_len_not_eight_n :
    (buildHeader [[97, 98, 99]]).trigram_posting_ends.len = 12 ∧
      (allTrigrams [[97, 98, 99]]).length = 3 ∧
      (buildHeader [[97, 98, 99]]).trigram_posting_ends.len ≠
        8 * (allTrigrams [[97, 98, 99]]).length := by
  decide

/-- C5 (amended): after building an index containing N distinct trigrams, the
builder writes one little-endian u64 cumulative end offset per posting (8·N
bytes of table), but the footer's `trigram_posting_ends` section records `len`
equal to 4·N (a multiple of 4) with `len / 4 == unique_trigrams.len / 3 == N`
(matching the reader's asserts at src/src/index.rs lines 42-43). -/
theorem posting_ends_layout (docs : List (List Nat)) :
    (endsTableBytes docs).length = 8 * (allTrigrams docs).length ∧
      (buildHeader docs).trigram_posting_ends.len = 4 * (allTrigrams docs).length ∧
      (buildHeader docs).unique_trigrams.len = 3 * (allTrigrams docs).length ∧
      (buildHeader docs).trigram_posting_ends.len / 4
        = (buildHeader docs).unique_trigrams.len / 3 := by
  have h1 : (endsTableBytes docs).length = 8 * (allTrigrams docs).length := by
    unfold endsTableBytes postingEnds
    rw [length_flatMap_u64LE, cumSums_length, List.length_map]
  have h2 : (buildHeader docs).unique_trigrams.len = 3 * (allTrigrams docs).length := by
    unfold buildHeader uniqueTrigramsBytes
    exact length_flatMap_triple _
  refine ⟨h1, rfl, h2, ?_⟩
  rw [h2]
  show 4 * (allTrigrams docs).length / 4 = 3 * (allTrigrams docs).length / 3
  rw [Nat.mul_div_cancel_left _ (by norm_num), Nat.mul_div_cancel_left _ (by norm_num)]

/-- C6: for every posting produced by the builder from byte documents, the
matrix sequence is strictly increasing, and every value `v` in it satisfies
`v / |unique_successors| < |unique_docs|` and
`v mod |unique_successors| < |unique_successors|`. -/
theorem matrix_invariant (docs : List (List Nat))
    (hb : ∀ d ∈ docs, ∀ b ∈ d, b < 256) (t : Trigram) (P : TrigramPosting)
    (he : (t, P) ∈ (buildIndex docs).entries) (v : Nat) (hv : v ∈ P.matrix) :
    P.matrix.Pairwise (· < ·) ∧
      v / P.uniqueSuccessors.length < P.docs.length ∧
      v % P.uniqueSuccessors.length < P.uniqueSuccessors.length := by
  have hP : P = mkPosting docs t := mem_entries_posting he
  subst hP
  have hv2 : v ∈ buildMatrix (buildU (docsFor docs t)) (docsFor docs t) := hv
  refine ⟨buildMatrix_pairwise_lt hb, ?_, (buildMatrix_div_mod hv2).2⟩
  have h1 := (buildMatrix_div_mod hv2).1
  show v / (buildU (docsFor docs t)).length < (buildD (docsFor docs t)).length
  rw [show (buildD (docsFor docs t)).length = (docsFor docs t).length from
    List.length_map _ _]
  exact h1

/-- Witness for C6: the posting of trigram `"abc"` in the index built from the
single document `"abc"`, at its matrix value 0. -/
theorem matrix_invariant_witness :
    (mkPosting [[97, 98, 99]] (97, 98, 99)).matrix.Pairwise (· < ·) ∧
      0 / (mkPosting [[97, 98, 99]] (97, 98, 99)).uniqueSuccessors.length
        < (mkPosting [[97, 98, 99]] (97, 98, 99)).docs.length ∧
      0 % (mkPosting [[97, 98, 99]] (97, 98, 99)).uniqueSuccessors.length
        < (mkPosting [[97, 98, 99]] (97, 98, 99)).uniqueSuccessors.length :=
  matrix_invariant [[97, 98, 99]] (by decide) (97, 98, 99)
    (mkPosting [[97, 98, 99]] (97, 98, 99)) (by decide) 0 (by decide)

/-- C7: for every opened index and every query longer than six bytes,
`candidates` yields exactly the same sequence as on the query truncated to its
first six bytes — bytes beyond the sixth never affect the result (Plan C uses
only the first three bytes of the remainder). -/
theorem candidates_plan_c_take_six (idx : Index) (Q : List Nat) (h : 6 < Q.length) :
    idx.candidates Q = idx.candidates (Q.take 6) :=
  match Q, h with
  | q0 :: q1 :: q2 :: r3 :: r4 :: r5 :: r6 :: rs, _ => by
    show idx.candidates (q0 :: q1 :: q2 :: r3 :: r4 :: r5 :: r6 :: rs)
        = idx.candidates [q0, q1, q2, r3, r4, r5]
    unfold Index.candidates
    cases hf : idx.entries.find? (fun e => e.1 == (q0, q1, q2)) with
    | none => simp only [hf]
    | some e => simp only [hf]; exact search_take_three e.2 r3 r4 r5 r6 rs
  | [], h | [_], h | [_, _], h | [_, _, _], h
  | [_, _, _, _], h | [_, _, _, _, _], h | [_, _, _, _, _, _], h => by simp at h

/-- Witness for C7: a 7-byte query against the index of `"abcde"`. -/
theorem candidates_plan_c_take_six_witness :
    Index.candidates (buildIndex [[97, 98, 99, 100, 101]])
        [97, 98, 99, 100, 101, 102, 103]
      = Index.candidates (buildIndex [[97, 98, 99, 100, 101]])
          ([97, 98, 99, 100, 101, 102, 103].take 6) :=
  candidates_plan_c_take_six (buildIndex [[97, 98, 99, 100, 101]])
    [97, 98, 99, 100, 101, 102, 103] (by decide)

/-- C8: for every opened index, a query shorter than three bytes yields
exactly the DocIDs `0, 1, ..., num_docs - 1`, and a query of length at least
three whose leading trigram is absent from the trigram directory yields the
empty sequence; neither case is an error. -/
theorem short_query_and_missing_trigram (idx : Index) :
    (∀ Q : List Nat, Q.length < 3 → idx.candidates Q = List.range idx.numDocs) ∧
      (∀ q0 q1 q2 : Nat, ∀ rest : List Nat,
        ((q0, q1, q2) : Trigram) ∉ idx.entries.map Prod.fst →
          idx.candidates (q0 :: q1 :: q2 :: rest) = []) :=
  ⟨fun Q h => candidates_short idx Q h,
   fun q0 q1 q2 rest h => candidates_missing idx q0 q1 q2 rest h⟩

/-- Witness for C8: on the index of `"abc"` (one document), the query `[97]`
yields `range 1` and the absent trigram `"xyz"` yields nothing. -/
theorem short_query_and_missing_trigram_witness :
    Index.candidates (buildIndex [[97, 98, 99]]) [97]
        = List.range (buildIndex [[97, 98, 99]]).numDocs ∧
      Index.candidates (buildIndex [[97, 98, 99]]) [120, 121, 122] = [] :=
  ⟨(short_query_and_missing_trigram (buildIndex [[97, 98, 99]])).1 [97] (by decide),
   (short_query_and_missing_trigram (buildIndex [[97, 98, 99]])).2 120 121 122 []
     (by decide)⟩

/-- C9: for every index built from any document list and every query, the
sequence yielded by `candidates` contains each DocID at most once. -/
theorem candidates_no_duplicates (docs : List (List Nat)) (q : List Nat) :
    (Index.candidates (buildIndex docs) q).Nodup := by
  unfold Index.candidates
  split
  next q0 q1 q2 rest =>
    cases hf : (buildIndex docs).entries.find? (fun e => e.1 == (q0, q1, q2)) with
    | none => simp
    | some e =>
      simp only [hf]
      have he := List.mem_of_find?_eq_some hf
      have hD : e.2.docs.Nodup := by
        rw [mem_entries_posting he]
        exact buildD_nodup docs e.1
      exact search_nodup e.2 hD rest
  next => exact List.nodup_range _

/-- C10: every sequence the builder hands to the sorted-delta compressor — the
unique-successor list, the matrix sequence, and the per-posting DocID list —
is non-decreasing, so `U32DeltaCompressor::write_to`'s sortedness assertion
succeeds (`isSome`) on each stream of every posting of every build. -/
theorem compressor_inputs_sorted (docs : List (List Nat)) (t : Trigram)
    (P : TrigramPosting) (he : (t, P) ∈ (buildIndex docs).entries) :
    (U32DeltaCompressor.writeTo P.uniqueSuccessors).isSome = true ∧
      (U32DeltaCompressor.writeTo P.matrix).isSome = true ∧
      (U32DeltaCompressor.writeTo P.docs).isSome = true := by
  have hP : P = mkPosting docs t := mem_entries_posting he
  subst hP
  exact ⟨writeTo_isSome_of_pairwise (buildU_sorted _),
    writeTo_isSome_of_pairwise (buildMatrix_pairwise_le _ _),
    writeTo_isSome_of_pairwise ((buildD_pairwise_lt docs t).imp (fun h => Nat.le_of_lt h))⟩

/-- Witness for C10: the posting of trigram `"abc"` in the index built from
the single document `"abc"`. -/
theorem compressor_inputs_sorted_witness :
    (U32DeltaCompressor.writeTo
        (mkPosting [[97, 98, 99]] (97, 98, 99)).uniqueSuccessors).isSome = true ∧
      (U32DeltaCompressor.writeTo
        (mkPosting [[97, 98, 99]] (97, 98, 99)).matrix).isSome = true ∧
      (U32DeltaCompressor.writeTo
        (mkPosting [[97, 98, 99]] (97, 98, 99)).docs).isSome = true :=
  compressor_inputs_sorted [[97, 98, 99]] (97, 98, 99)
    (mkPosting [[97, 98, 99]] (97, 98, 99)) (by decide)

end Trident
